import Mathlib

/-!
Shallow embedding of the function-index and diagnostics engine of
`src/server/src/modules/ext.ts` (class `ExtModule`).

Modelling conventions:
* JavaScript objects used as string-keyed maps become association lists
  `List (String × α)`; key iteration order is list order (JS objects preserve
  insertion order for string keys), lookup is `List.lookup`, and assignment
  `obj[k] = v` is `objInsert` (replace in place, else append).
* Strings are handled at the codepoint level via `String.data`; for the ASCII
  inputs exercised by this module, JS UTF-16 `length` / `slice` / `substr` /
  `toLowerCase` agree with the `List Char` operations used here.
* The Node `path` module is embedded with its posix semantics
  (`path.posix.join`, `path.posix.dirname`, `path.posix.isAbsolute`,
  `path.posix.extname`, `path.posix.basename`), translated from the Node
  source; the `path` module is platform dependent and the posix flavour is
  the one fixed by this embedding.
* Filesystem access (`fs.existsSync`, `fs.readFileSync`) becomes an explicit
  `FS` value passed through the definitions.
* JS truthiness on optional strings (`x || y`, `if (x)`) is `jsOr`:
  `undefined` and the empty string are falsy.
-/

namespace Ext

/-- Source range of a parsed entity, as carried by the external Hpp parser
for diagnostics attribution. -/
structure SrcRange where
  startLine : Nat
  startChar : Nat
  endLine : Nat
  endChar : Nat
deriving DecidableEq

/-- Diagnostic severity; `error` corresponds to `DiagnosticSeverity.Error`. -/
inductive Severity where
  | error
  | warning
  | information
  | hint
deriving DecidableEq

/-- An LSP diagnostic as built by `ExtModule` (severity, range, message,
source tag). -/
structure Diagnostic where
  severity : Severity
  range : SrcRange
  message : String
  source : String
deriving DecidableEq

/-- Modelled from the spec: `Uri.file(f).toString()` comes from
`src/server/src/uri.ts`, which is not included under `src/`; diagnostics and
locations are keyed here by the underlying filename, standing in for its
file-URI string (the spec only requires the attribution key to identify the
file). -/
def uriFile (f : String) : String := f

/-- JS `a || b` for an optional string `a` (both `undefined` and `""` are
falsy), and equally `let x := b; if (a) x = a` for string-valued `a`. -/
def jsOr (a : Option String) (b : String) : String :=
  match a with
  | some s => if s = "" then b else s
  | none => b

/-- JS object assignment `obj[k] = v` on a string-keyed map: replaces the
value in place when the key is present (keeping its original position),
otherwise appends the new binding. -/
def objInsert {α : Type} : List (String × α) → String → α → List (String × α)
  | [], k, v => [(k, v)]
  | (k', v') :: rest, k, v =>
    if k' = k then (k', v) :: rest else (k', v') :: objInsert rest k v

/-- JS `String.prototype.toLowerCase`, embedded as a codepoint map (ASCII
case folding, as implemented by `Char.toLower`). -/
def jsToLower (s : String) : String := ⟨s.data.map Char.toLower⟩

/-- JS `s.startsWith(p)`. -/
def jsStartsWith (s p : String) : Bool := s.data.take p.data.length = p.data

/-- JS `s.slice(n)` (drop the first `n` code units). -/
def jsSliceFrom (s : String) (n : Nat) : String := ⟨s.data.drop n⟩

/-- JS `s.length`. -/
def jsLength (s : String) : Nat := s.data.length

/-- One step of Node's `normalizeString` segment processing: empty and `"."`
segments are dropped, `".."` pops the last kept segment (or is kept itself at
the top when `allowAbove` holds, i.e. for relative paths), and any other
segment is kept.  The accumulator holds the kept segments in reverse. -/
def normStep (allowAbove : Bool) (acc : List (List Char)) (seg : List Char) :
    List (List Char) :=
  if seg = [] ∨ seg = ['.'] then acc
  else if seg = ['.', '.'] then
    match acc with
    | [] => if allowAbove then [['.', '.']] else []
    | top :: rest =>
      if top = ['.', '.'] then
        if allowAbove then ['.', '.'] :: acc else acc
      else rest
  else seg :: acc

/-- Node `path.posix.normalize`, on the character list of the path.  The
leading/trailing-separator tests are phrased on the `splitOn` decomposition
(for a nonempty list, the first chunk is empty iff the list starts with `/`,
and the last chunk is empty iff it ends with `/`). -/
def posixNormalizeL (p : List Char) : List Char :=
  if p = [] then ['.']
  else
    let segs := List.splitOn '/' p
    let isAbs : Bool := segs.head? == some []
    let trail : Bool := segs.getLast? == some []
    let kept := (segs.foldl (normStep !isAbs) []).reverse
    let body := ['/'].intercalate kept
    if body = [] then
      if isAbs then ['/'] else if trail then ['.', '/'] else ['.']
    else
      (if isAbs then '/' :: body else body) ++ (if trail then ['/'] else [])

/-- Node `path.posix.normalize` on strings. -/
def posixNormalize (p : String) : String := ⟨posixNormalizeL p.data⟩

/-- Node `path.posix.join` restricted to two arguments, as used by
`ExtModule` (empty arguments are skipped, the rest are joined with `/` and
normalized; with no nonempty argument the result is `"."`). -/
def pathJoin2 (a b : String) : String :=
  if a = "" then
    if b = "" then "." else posixNormalize b
  else if b = "" then posixNormalize a
  else posixNormalize (a ++ "/" ++ b)

/-- Node `path.posix.isAbsolute`. -/
def pathIsAbsolute (p : String) : Bool :=
  match p.data with
  | '/' :: _ => true
  | _ => false

/-- Node `path.posix.dirname`: scan from the end (never reaching index 0),
skip trailing separators, and cut before the separator that precedes the
last path component; with no such separator the result is `"."` (or `"/"`
for a rooted path). -/
def pathDirname (p : String) : String :=
  match p.data with
  | [] => "."
  | c0 :: t =>
    let hasRoot := c0 = '/'
    let t2 := (t.reverse.dropWhile (· = '/')).dropWhile (· ≠ '/')
    if t2 = [] then (if hasRoot then "/" else ".")
    else if hasRoot ∧ t2.length = 1 then "//"
    else ⟨c0 :: t.take (t2.length - 1)⟩

/-- Node `path.posix.extname`: the suffix of the last path component from its
last dot, where a dot in first position does not begin an extension (so
`".bar"` and `".."` have no extension). -/
def pathExtname (p : String) : String :=
  let base := (List.splitOn '/' p.data).getLast?.getD []
  if base = ['.', '.'] then ""
  else
    let dotIdx := (base.reverse.dropWhile (· ≠ '.')).length
    if dotIdx ≤ 1 then "" else ⟨base.drop (dotIdx - 1)⟩

/-- Node `path.posix.basename` (without the optional suffix argument):
the last path component, ignoring trailing separators. -/
def pathBasename (p : String) : String :=
  let r := (p.data.reverse.dropWhile (· = '/')).takeWhile (· ≠ '/')
  ⟨r.reverse⟩

/-- Filesystem access, passed explicitly: `existsSync` and `readFileSync`
from the Node `fs` module as used by `ExtModule`. -/
structure FS where
  existsSync : String → Bool
  readFileSync : String → String

/-- A parsed config class (external data model `Hpp.Class` plus its
`Hpp.ClassBody`, flattened): literal class name, `fileLocation` origin
filename and range, child classes keyed by lower-cased name, and variables
keyed by lower-cased name (string-valued variables, the only kind this
module reads). -/
inductive HppClass where
  | mk (name : String) (locFilename : Option String) (locRange : SrcRange)
      (classes : List (String × HppClass)) (vars : List (String × String))

/-- Literal (as-written) class name. -/
def HppClass.name : HppClass → String
  | .mk n _ _ _ _ => n

/-- Origin filename of the class declaration (`fileLocation.filename`). -/
def HppClass.locFilename : HppClass → Option String
  | .mk _ f _ _ _ => f

/-- Source range of the class declaration (`fileLocation.range`). -/
def HppClass.locRange : HppClass → SrcRange
  | .mk _ _ r _ _ => r

/-- Child classes of the class body, keyed by lower-cased name. -/
def HppClass.classes : HppClass → List (String × HppClass)
  | .mk _ _ _ cs _ => cs

/-- Variables of the class body (`body.variables` in the source; the name
`vars` is used because `variables` is reserved in Lean), keyed by
lower-cased name. -/
def HppClass.vars : HppClass → List (String × String)
  | .mk _ _ _ _ vs => vs

/-- Top-level body of a parsed root file (`Hpp.ClassBody`). -/
structure ClassBody where
  classes : List (String × HppClass)
  vars : List (String × String)

/-- Variable access `cls.body.variables[k]` on a class. -/
def lookupVar (c : HppClass) (k : String) : Option String :=
  List.lookup k c.vars

/-- Structured docstring parameter, the shape consumed from the external
docstring parser (`param.name` and `param.default` are strings whose empty
value is JS-falsy, matching the truthiness tests in `onHover`). -/
structure DocParam where
  name : String
  type : String
  description : String
  optional : Bool
  default : String
deriving DecidableEq

/-- Structured docstring record (`Docstring.Info`), the shape consumed from
the external docstring parser: short description, parameter list, optional
single parameter, and return-type label. -/
structure DocInfo where
  descriptionShort : String
  parameters : List DocParam
  parameter : Option DocParam
  returnsType : String
deriving DecidableEq

/-- A recorded function (interface `Function` of `ext.ts`): qualified name
as declared, resolved filename, and lazily attached docstring info. -/
structure Function where
  name : String
  filename : String
  info : Option DocInfo := none
deriving DecidableEq

/-- Relevant linter settings consumed by `ExtModule`. -/
structure Settings where
  includePrefixes : List (String × String)
  descriptionFiles : List String
  discoverDescriptionFiles : Bool

/-- Inner function table of one root file: lower-cased qualified name to
record. -/
abbrev FunctionMap := List (String × Function)

/-- The `functions` field of `ExtModule`: root description-file path to
inner function table. -/
abbrev FunctionTable := List (String × FunctionMap)

/-- Diagnostics batch grouped by attributed file URI. -/
abbrev DiagMap := List (String × List Diagnostic)

/-- Include-path resolution loop of `processCfgFunctions` (`ext.ts` lines
393-409): the first configured include entry whose key is a string prefix of
the relative filename wins; on a match the prefix is sliced off and the
mapped local path is prepended verbatim, the result being used as-is when
the mapped path is absolute and joined against the root file's directory
otherwise; with no match the relative filename is joined against the root
file's directory. -/
def resolveFunctionPath (root filename : String) :
    List (String × String) → String
  | [] => pathJoin2 root filename
  | (pre, mapped) :: rest =>
    if jsStartsWith filename pre then
      if pathIsAbsolute mapped then
        mapped ++ jsSliceFrom filename (jsLength pre)
      else
        pathJoin2 root (mapped ++ jsSliceFrom filename (jsLength pre))
    else resolveFunctionPath root filename rest

/-- Per-function outcome of the index builder: table key, record, and the
optional missing-file diagnostic together with the filename it is attributed
to. -/
structure FnResult where
  key : String
  fn : Function
  diag : Option (String × Diagnostic)

/-- Effective relative filename of a function class before include-path and
root resolution: `<categoryPath>/fn_<name><ext>` with `ext` defaulting to
`.sqf`, wholly overridden by a truthy `file` variable. -/
def functionRelFilename (categoryPath : String) (functionClass : HppClass) :
    String :=
  let ext := jsOr (lookupVar functionClass "ext") ".sqf"
  jsOr (lookupVar functionClass "file")
    (pathJoin2 categoryPath ("fn_" ++ functionClass.name ++ ext))

/-- Function level of `processCfgFunctions` (`ext.ts` lines 375-437): build
the qualified name `<categoryTag>_fnc_<name>`, resolve the filename, record
the function under the lower-cased qualified name, and emit one Error
diagnostic when the resolved file does not exist, attributed to the
declaration-site filename (falling back to the root file). -/
def processFunction (settings : Settings) (fs : FS)
    (root rootFilename categoryTag categoryPath : String)
    (functionClass : HppClass) : FnResult :=
  let functionName := functionClass.name
  let fullFunctionName := categoryTag ++ "_fnc_" ++ functionName
  let filename := resolveFunctionPath root
    (functionRelFilename categoryPath functionClass) settings.includePrefixes
  { key := jsToLower fullFunctionName
    fn := { name := fullFunctionName, filename := filename }
    diag :=
      if fs.existsSync filename then none
      else some (uriFile (jsOr functionClass.locFilename rootFilename),
        { severity := .error
          range := functionClass.locRange
          message := "Failed to find " ++ filename ++ " for function " ++
            fullFunctionName ++ "."
          source := "sqflint" }) }

/-- Category level of `processCfgFunctions` (`ext.ts` lines 357-373): the
category tag is its own `tag` variable else the enclosing tag, the category
path defaults to `functions/<category-class-name>` and is wholly overridden
by a truthy `file` variable. -/
def processCategory (settings : Settings) (fs : FS)
    (root rootFilename tag : String) (categoryClass : HppClass) :
    List FnResult :=
  let category := categoryClass.name
  let categoryPath := jsOr (lookupVar categoryClass "file")
    (pathJoin2 "functions" category)
  let categoryTag := jsOr (lookupVar categoryClass "tag") tag
  categoryClass.classes.map (fun e =>
    processFunction settings fs root rootFilename categoryTag categoryPath e.2)

/-- Tag level of `processCfgFunctions` (`ext.ts` lines 350-355): the
effective tag is the group's `tag` variable else the class's own name. -/
def processTag (settings : Settings) (fs : FS) (root rootFilename : String)
    (tagClass : HppClass) : List FnResult :=
  let tag := jsOr (lookupVar tagClass "tag") tagClass.name
  (tagClass.classes.map (fun e =>
    processCategory settings fs root rootFilename tag e.2)).flatten

/-- All per-function outcomes of one `CfgFunctions` walk, in declaration
order. -/
def cfgResults (settings : Settings) (fs : FS) (root rootFilename : String)
    (cfg : HppClass) : List FnResult :=
  (cfg.classes.map (fun e =>
    processTag settings fs root rootFilename e.2)).flatten

/-- The inner function table built from the walk's outcomes
(`functions[key] = record` in declaration order). -/
def buildFunctions (results : List FnResult) : FunctionMap :=
  results.foldl (fun m r => objInsert m r.key r.fn) []

/-- Push one diagnostic under its URI (`if (!diagnostics[uri])
diagnostics[uri] = []; diagnostics[uri].push(d)`). -/
def pushDiag (d : DiagMap) (uri : String) (diag : Diagnostic) : DiagMap :=
  match List.lookup uri d with
  | some ds => objInsert d uri (ds ++ [diag])
  | none => d ++ [(uri, [diag])]

/-- The diagnostics batch built from the walk's outcomes. -/
def buildDiagnostics (results : List FnResult) : DiagMap :=
  results.foldl (fun d r =>
    match r.diag with
    | some ud => pushDiag d ud.1 ud.2
    | none => d) []

/-- Returns `opensAt s i` when the comment opener `/*` occurs at index `i`
of `s`. -/
def opensAt (s : List Char) (i : Nat) : Bool :=
  decide ((s.drop i).take 2 = ['/', '*'])

/-- Returns `closesAt s j` when the comment closer `*/` occurs at index `j`
of `s`. -/
def closesAt (s : List Char) (j : Nat) : Bool :=
  decide ((s.drop j).take 2 = ['*', '/'])

/-- Embedding of the docstring search of `tryToLoadDocs`: the capture group
of `exec` with the regular expression `\s*\/\*((?:.|\n|\r)*)\*\//` on the
file contents.  The regex is unanchored, so `exec` finds the leftmost
position where optional whitespace is followed by `/*` with some `*/`
ending at least two characters later; because a whitespace run can never
cross an earlier `/*`, the opener used is the first `/*` of the text that
has such a closer, and the greedy group extends to the last `*/` of the
text.  The capture group is the text strictly between that opener and that
closer. -/
def commentExec (s : List Char) : Option (List Char) :=
  match (List.range s.length).find? (fun i => opensAt s i &&
      (List.range s.length).any (fun j => decide (i + 2 ≤ j) && closesAt s j)) with
  | some i =>
    let j := (((List.range s.length).filter
      (fun j => decide (i + 2 ≤ j) && closesAt s j)).getLast?).getD 0
    some ((s.take j).drop (i + 2))
  | none => none

/-- Loop body of `tryToLoadDocs` for one recorded function: when the
resolved file exists, run the comment regex on its contents and, on a
match, attach the external docstring parser's result for the capture
group. -/
def docStep (dparse : String → DocInfo) (fs : FS) (e : String × Function) :
    String × Function :=
  let fnc := e.2
  if fs.existsSync fnc.filename then
    match commentExec (fs.readFileSync fnc.filename).data with
    | some interior => (e.1, { fnc with info := some (dparse ⟨interior⟩) })
    | none => e
  else e

/-- Docstring extraction (`tryToLoadDocs`, `ext.ts` lines 454-472): run
`docStep` over every recorded function of the root's table.  The external
parser `Docstring.parse` is an arbitrary total function `dparse`. -/
def tryToLoadDocs (dparse : String → DocInfo) (fs : FS)
    (functions : FunctionMap) : FunctionMap :=
  functions.map (docStep dparse fs)

/-- Result of one `processCfgFunctions` call: the root's new inner function
table (after docstring extraction) and the diagnostics batch it sends. -/
structure ProcessOutput where
  functions : FunctionMap
  diagnostics : DiagMap

/-- Whole-registry walk (`processCfgFunctions`, `ext.ts` lines 342-452):
replaces the root's inner table, collects missing-file diagnostics grouped
by URI, and runs docstring extraction on the new table. -/
def processCfgFunctions (dparse : String → DocInfo) (settings : Settings)
    (fs : FS) (cfg : HppClass) (rootFilename : String) : ProcessOutput :=
  let root := pathDirname rootFilename
  let results := cfgResults settings fs root rootFilename cfg
  { functions := tryToLoadDocs dparse fs (buildFunctions results)
    diagnostics := buildDiagnostics results }

/-- Root processing (`process`, `ext.ts` lines 331-337): look up the
top-level `cfgfunctions` class (keys are stored lower-cased by the parser,
making the match case-insensitive) and, only when present, rebuild that
root's table entry; when absent the module state is left untouched and no
diagnostics are produced.  Returns the updated `functions` table and the
diagnostics batch sent. -/
def process (dparse : String → DocInfo) (settings : Settings) (fs : FS)
    (context : ClassBody) (filename : String) (table : FunctionTable) :
    FunctionTable × DiagMap :=
  match List.lookup "cfgfunctions" context.classes with
  | some cfg =>
    let out := processCfgFunctions dparse settings fs cfg filename
    (objInsert table filename out.functions, out.diagnostics)
  | none => (table, [])

/-- A documentation-table entry (`description-values.json` record). -/
structure Documentation where
  name : String
  type : String
  description : String
  link : String
deriving DecidableEq

/-- Read-only module state seen by the query surface. -/
structure ExtState where
  functions : FunctionTable
  documentation : List (String × Documentation)

/-- An LSP completion item as built by `onCompletion`; `kind` is the numeric
`CompletionItemKind` (3 = Function, 10 = Property). -/
structure CompletionItem where
  label : String
  data : String
  filterText : String
  insertText : String
  kind : Nat
  documentation : Option String := none
deriving DecidableEq

/-- Numeric value of `CompletionItemKind.Function`. -/
def completionKindFunction : Nat := 3

/-- Numeric value of `CompletionItemKind.Property`. -/
def completionKindProperty : Nat := 10

/-- The completion filter `ident.length >= name.length &&
ident.substr(0, name.length) == name`. -/
def completionMatches (name ident : String) : Bool :=
  decide (jsLength name ≤ jsLength ident ∧
    ident.data.take (jsLength name) = name.data)

/-- Function half of `onCompletion`: one item per table entry, across all
roots, whose key passes the completion filter. -/
def fnCompletionItems (functions : FunctionTable) (name : String) :
    List CompletionItem :=
  (functions.map (fun fe =>
    fe.2.filterMap (fun e =>
      if completionMatches name e.1 then
        some { label := e.2.name, data := e.1, filterText := e.2.name
               insertText := e.2.name, kind := completionKindFunction }
      else none))).flatten

/-- Insertion template chosen by a documentation entry's `type` label. -/
def docReplaceText (value : Documentation) : String :=
  let t := jsToLower value.type
  if t = "string" then value.name ++ " = \""
  else if t = "array" ∨ t = "array of strings" then value.name ++ "[] = \x7b"
  else if t = "class" then "class " ++ value.name ++ "\n\x7b\n"
  else value.name ++ " = "

/-- Documentation half of `onCompletion`: one item per documentation entry
whose key passes the completion filter. -/
def docCompletionItems (docs : List (String × Documentation)) (name : String) :
    List CompletionItem :=
  docs.filterMap (fun e =>
    if completionMatches name e.1 then
      some { label := e.2.name, data := e.1, filterText := docReplaceText e.2
             insertText := docReplaceText e.2, kind := completionKindProperty
             documentation := some e.2.description }
    else none)

/-- Completion handler (`onCompletion`, `ext.ts` lines 139-187): function
items when the document has extension `.sqf` (case-folded), then
documentation items when its basename is `description.ext` (case-folded). -/
def onCompletion (state : ExtState) (uri name : String) : List CompletionItem :=
  (if jsToLower (pathExtname uri) = ".sqf" then
    fnCompletionItems state.functions name
  else []) ++
  (if jsToLower (pathBasename uri) = "description.ext" then
    docCompletionItems state.documentation name
  else [])

/-- One rendered parameter line of the hover text. -/
def hoverParamLine (ip : Nat × DocParam) : String :=
  if ip.2.name ≠ "" then
    toString ip.1 ++ ". `" ++ ip.2.name ++ " (" ++ ip.2.type ++ ")` - " ++
      ip.2.description
  else
    toString ip.1 ++ ". `" ++ ip.2.type ++ "` - " ++ ip.2.description

/-- One argument of the synthesized hover call signature. -/
def hoverArgName (ip : Nat × DocParam) : String :=
  let n := if ip.2.name ≠ "" then ip.2.name
    else "_" ++ jsToLower ip.2.type ++ toString ip.1
  if ip.2.optional ∧ ip.2.default ≠ "" then n ++ "=" ++ ip.2.default else n

/-- Hover markdown for a found function (`onHover`, `ext.ts` lines
194-236). -/
def renderHover (item : Function) : String :=
  let info := item.info
  let c1 := match info with
    | some i => if i.descriptionShort ≠ "" then i.descriptionShort ++ "\r\n"
      else ""
    | none => ""
  let c2 := match info with
    | some i =>
      if i.parameters.length > 0 then
        "\r\n" ++
          String.intercalate "\r\n" (i.parameters.enum.map hoverParamLine) ++
          "\r\n\r\n"
      else ""
    | none => ""
  let c3 := "```sqf\r\n(function)"
  let c4 := match info with
    | some i => if i.returnsType ≠ "" then " " ++ i.returnsType ++ " =" else ""
    | none => ""
  let args := match info with
    | some i =>
      match i.parameter with
      | some p => p.type
      | none =>
        if i.parameters.length > 0 then
          "[" ++ String.intercalate "," (i.parameters.enum.map hoverArgName) ++
            "]"
        else "ANY"
    | none => "ANY"
  c1 ++ c2 ++ c3 ++ c4 ++ " " ++ args ++ " call " ++ item.name ++ "\r\n```"

/-- The hover search loop: the queried name is looked up verbatim in each
root's table, first hit wins. -/
def hoverFindFn (name : String) : FunctionTable → Option Function
  | [] => none
  | e :: rest =>
    match List.lookup name e.2 with
    | some item => some item
    | none => hoverFindFn name rest

/-- Hover handler (`onHover`, `ext.ts` lines 189-251): for a `.sqf`
document, find a verbatim name match across the roots and render it; else
fall through to an exact documentation lookup for `description.ext`
documents; else nothing. -/
def onHover (state : ExtState) (uri name : String) : Option String :=
  match (if jsToLower (pathExtname uri) = ".sqf" then
      hoverFindFn name state.functions
    else none) with
  | some item => some (renderHover item)
  | none =>
    if jsToLower (pathBasename uri) = "description.ext" then
      match List.lookup name state.documentation with
      | some item =>
        some (item.description ++ " _([more info](" ++ item.link ++ "))_")
      | none => none
    else none

/-- The definition search loop of `getFunction`, over a pre-lower-cased
name (the source lower-cases the same `name` on every iteration). -/
def getFunctionLoop (lowered : String) : FunctionTable → Option Function
  | [] => none
  | e :: rest =>
    match List.lookup lowered e.2 with
    | some f => some f
    | none => getFunctionLoop lowered rest

/-- Name lookup (`getFunction`, `ext.ts` lines 268-274): lower-case the
queried name, then return the first root's matching record. -/
def getFunction (functions : FunctionTable) (name : String) : Option Function :=
  getFunctionLoop (jsToLower name) functions

/-- An LSP location as built by `onDefinition`. -/
structure Location where
  uri : String
  startLine : Nat
  startChar : Nat
  endLine : Nat
  endChar : Nat
deriving DecidableEq

/-- Definition handler (`onDefinition`, `ext.ts` lines 253-266): the found
function's file at line 0, single-character range; empty when unknown. -/
def onDefinition (functions : FunctionTable) (name : String) : List Location :=
  match getFunction functions name with
  | none => []
  | some fn =>
    [{ uri := uriFile fn.filename, startLine := 0, startChar := 0
       endLine := 0, endChar := 1 }]

/-- Parse failure of the external Hpp parser (`Hpp.ParseError`): origin
filename (possibly unset), source range, message. -/
structure ParseError where
  filename : Option String
  range : SrcRange
  message : String

/-- A callback scheduled on the event loop and not yet run: the
`fs.readFile` callback of `parseFile` for one root file, or the `glob`
callback of the discovery branch of `indexWorkspace`.  JS guarantees both
`fs.readFile` and `glob` never invoke their callback synchronously, and
`new Promise` runs its executor synchronously; the state below makes those
orderings explicit. -/
inductive Job where
  | readFile (filename : String)
  | globCb
deriving DecidableEq

/-- Explicit event-loop state for the workspace-indexing entry points:
scheduled-but-not-run callbacks in order, the module's `functions` table,
the ordered log of `sendDiagnostics` calls, the module's `files` field,
whether the promise returned by `indexWorkspace` has resolved, and the
ordered log of root files whose `parseFile` callback has completed. -/
structure AsyncState where
  pending : List Job
  table : FunctionTable
  sent : DiagMap
  files : List String
  indexResolved : Bool
  processedFiles : List String

/-- The event-loop state before `indexWorkspace` is called. -/
def initialAsyncState : AsyncState :=
  { pending := [], table := [], sent := [], files := []
    indexResolved := false, processedFiles := [] }

/-- External collaborators and configuration of one workspace session:
the docstring parser, the Hpp config parser (`Modelled from the spec:`
`Hpp.parse` from `src/server/src/parsers/hpp.ts` is not under `src/`; per
the spec it is an external collaborator `parse(path) -> ConfigClass` failing
with a ParseError, embedded as an arbitrary total function into `Except`),
the settings, the filesystem, the glob results for `**/description.ext`,
and the workspace root. -/
structure WorkspaceEnv where
  dparse : String → DocInfo
  hppParse : String → Except ParseError ClassBody
  settings : Settings
  fs : FS
  discovered : List String
  root : String

/-- Synchronous part of `parseFile` (`ext.ts` lines 292-294): calling
`fs.readFile` schedules its callback and returns at once. -/
def parseFileStart (st : AsyncState) (filename : String) : AsyncState :=
  { st with pending := st.pending ++ [Job.readFile filename] }

/-- Synchronous part of `parse` (`ext.ts` lines 279-287): only an existing
file reaches `parseFile`. -/
def parseStart (fs : FS) (st : AsyncState) (filename : String) : AsyncState :=
  if fs.existsSync filename then parseFileStart st filename else st

/-- The predefined root files (`ext.ts` lines 82-84): each configured
description file, resolved against the workspace root unless absolute. -/
def predefinedFiles (settings : Settings) (root : String) : List String :=
  settings.descriptionFiles.map (fun f =>
    if pathIsAbsolute f then f else pathJoin2 root f)

/-- Synchronous body of the `indexWorkspace` promise executor (`ext.ts`
lines 77-119).  With discovery on, `glob` schedules its callback and the
executor returns with the promise unresolved; with discovery off, the
conventional `description.ext` under the root is appended when it exists,
a parse is started (scheduled) for every file, and `resolve()` is then
called synchronously — before any scheduled callback has run. -/
def indexWorkspaceBody (env : WorkspaceEnv) (st : AsyncState) : AsyncState :=
  let files := predefinedFiles env.settings env.root
  if env.settings.discoverDescriptionFiles then
    { st with pending := st.pending ++ [Job.globCb] }
  else
    let descPath := pathJoin2 env.root "description.ext"
    let files := if env.fs.existsSync descPath then files ++ [descPath]
      else files
    let st1 := { st with files := files }
    let st2 := files.foldl (parseStart env.fs) st1
    { st2 with indexResolved := true }

/-- The `fs.readFile` callback of `parseFile` (`ext.ts` lines 294-326): on
a successful parse, run `process` and then push an empty diagnostics batch
for the root file (clearing stale errors); on a `ParseError` carrying a
truthy filename, push one Error diagnostic for that file; any other failure
is only logged.  In every branch the promise resolves, recorded by
appending to `processedFiles`. -/
def runReadFileJob (env : WorkspaceEnv) (filename : String) (st : AsyncState) :
    AsyncState :=
  match env.hppParse filename with
  | .ok ctx =>
    let out := process env.dparse env.settings env.fs ctx filename st.table
    { st with
      table := out.1
      sent := st.sent ++ out.2 ++ [(uriFile filename, [])]
      processedFiles := st.processedFiles ++ [filename] }
  | .error e =>
    match e.filename with
    | some ef =>
      if ef = "" then { st with processedFiles := st.processedFiles ++ [filename] }
      else
        { st with
          sent := st.sent ++
            [(uriFile ef, [{ severity := .error, range := e.range
                             message := e.message, source := "sqflint" }])]
          processedFiles := st.processedFiles ++ [filename] }
    | none => { st with processedFiles := st.processedFiles ++ [filename] }

/-- The `glob` callback of the discovery branch (`ext.ts` lines 88-102):
append the discovered files (joined under the root) to the predefined list,
start a parse for each, then resolve the `indexWorkspace` promise. -/
def runGlobJob (env : WorkspaceEnv) (st : AsyncState) : AsyncState :=
  let files := predefinedFiles env.settings env.root ++
    env.discovered.map (fun item => pathJoin2 env.root item)
  let st1 := { st with files := files }
  let st2 := files.foldl (parseStart env.fs) st1
  { st2 with indexResolved := true }

/-- Run one scheduled callback. -/
def runJob (env : WorkspaceEnv) (st : AsyncState) : Job → AsyncState
  | .readFile f => runReadFileJob env f st
  | .globCb => runGlobJob env st

/-- Run a list of scheduled callbacks in order. -/
def runJobs (env : WorkspaceEnv) (st : AsyncState) (jobs : List Job) :
    AsyncState :=
  jobs.foldl (runJob env) st

/-- The root files determined by the non-discovery branch of
`indexWorkspace`: the predefined list plus the conventional
`description.ext` under the workspace root when it exists. -/
def determinedFiles (env : WorkspaceEnv) : List String :=
  let files := predefinedFiles env.settings env.root
  if env.fs.existsSync (pathJoin2 env.root "description.ext") then
    files ++ [pathJoin2 env.root "description.ext"]
  else files

/-- Specification-side definition for claim C9, from the claim's words (for
comparison with the source-derived `commentExec`): the interior of a single
leading block comment before any code, i.e. optional whitespace, then the
opening delimiter, then the interior up to the first closing delimiter. -/
def takeUntilClose : List Char → Option (List Char)
  | [] => none
  | '*' :: '/' :: _ => some []
  | c :: rest => (takeUntilClose rest).map (c :: ·)

/-- Specification-side definition for claim C9 (see `takeUntilClose`): the
docstring interior the claim says is extracted — `none` whenever the file's
text does not start (after whitespace) with a block comment. -/
def specLeadingBlockComment (s : String) : Option (List Char) :=
  match s.data.dropWhile (fun c =>
      c = ' ' ∨ c = '\t' ∨ c = '\n' ∨ c = '\r') with
  | '/' :: '*' :: rest => takeUntilClose rest
  | _ => none

/-- A segment usable verbatim in a posix path: nonempty, not `.` or `..`,
and free of separators, so that `path.join` concatenates it unchanged. -/
def PlainL (l : List Char) : Prop :=
  l ≠ [] ∧ l ≠ ['.'] ∧ l ≠ ['.', '.'] ∧ '/' ∉ l

instance (l : List Char) : Decidable (PlainL l) := by
  unfold PlainL
  infer_instance

/-- Key well-formedness of the function table: every inner key is unchanged
by lower-casing (as guaranteed by the index builder, which keys records by
`fullFunctionName.toLowerCase()`). -/
def WFLowerKeys (t : FunctionTable) : Prop :=
  ∀ e ∈ t, ∀ en ∈ e.2, jsToLower en.1 = en.1

instance (t : FunctionTable) : Decidable (WFLowerKeys t) := by
  unfold WFLowerKeys
  infer_instance

/-- Total number of diagnostics in a batch, across all URIs. -/
def diagTotal (d : DiagMap) : Nat :=
  (d.map (fun e => e.2.length)).sum

/-- Folding `normStep` over plain segments keeps them all (in reverse). -/
lemma foldl_normStep_plain (ab : Bool) (chunks : List (List Char)) :
    ∀ acc : List (List Char), (∀ l ∈ chunks, PlainL l) →
      chunks.foldl (normStep ab) acc = chunks.reverse ++ acc := by
  induction chunks with
  | nil => intro acc _; simp
  | cons hd tl ih =>
    intro acc h
    obtain ⟨h1, h2, h3, _⟩ := h hd (List.mem_cons_self _ _)
    have hstep : normStep ab acc hd = hd :: acc := by
      simp [normStep, h1, h2, h3]
    rw [List.foldl_cons, hstep,
      ih _ (fun l hl => h l (List.mem_cons_of_mem _ hl))]
    simp

/-- Unfolding of `intercalate` on a list with at least two chunks. -/
lemma intercalate_cons_ne (c0 : List Char) (rest : List (List Char))
    (hr : rest ≠ []) :
    ['/'].intercalate (c0 :: rest) = c0 ++ '/' :: (['/'].intercalate rest) := by
  cases rest with
  | nil => exact absurd rfl hr
  | cons b bs => simp [List.intercalate, List.intersperse_cons_cons]

/-- A separator-joined nonempty list of plain segments is nonempty. -/
lemma intercalate_plain_ne_nil (chunks : List (List Char))
    (h : ∀ l ∈ chunks, PlainL l) (hne : chunks ≠ []) :
    ['/'].intercalate chunks ≠ [] := by
  cases chunks with
  | nil => exact absurd rfl hne
  | cons c0 rest =>
    have hc0 := (h c0 (List.mem_cons_self _ _)).1
    cases rest with
    | nil => simpa [List.intercalate]
    | cons b bs =>
      rw [intercalate_cons_ne _ _ (by simp)]
      intro hx
      exact hc0 (List.append_eq_nil.mp hx).1

/-- Posix normalization is the identity on a separator-joined nonempty list
of plain segments. -/
lemma posixNormalizeL_plain (chunks : List (List Char))
    (h : ∀ l ∈ chunks, PlainL l) (hne : chunks ≠ []) :
    posixNormalizeL (['/'].intercalate chunks) = ['/'].intercalate chunks := by
  have hsplit : List.splitOn '/' (['/'].intercalate chunks) = chunks :=
    List.splitOn_intercalate _ '/' (fun l hl => (h l hl).2.2.2) hne
  have hp : ['/'].intercalate chunks ≠ [] :=
    intercalate_plain_ne_nil chunks h hne
  obtain ⟨c0, rest, rfl⟩ : ∃ c0 rest, chunks = c0 :: rest := by
    cases chunks with
    | nil => exact absurd rfl hne
    | cons a b => exact ⟨a, b, rfl⟩
  have hc0 : PlainL c0 := h c0 (List.mem_cons_self _ _)
  have hA : (((c0 :: rest).head? : Option (List Char)) == some []) = false :=
    beq_eq_false_iff_ne.mpr (by simp [hc0.1])
  have hlast := List.getLast?_eq_getLast (c0 :: rest) (by simp)
  have hlmem := List.getLast_mem (l := c0 :: rest) (by simp)
  have hlne : (c0 :: rest).getLast (by simp) ≠ [] := (h _ hlmem).1
  have hT : (((c0 :: rest).getLast? : Option (List Char)) == some []) = false :=
    beq_eq_false_iff_ne.mpr (by rw [hlast]; simp [hlne])
  rw [posixNormalizeL, if_neg hp, hsplit]
  simp only [hA, hT, Bool.not_false]
  rw [foldl_normStep_plain true (c0 :: rest) [] h]
  simp only [List.append_nil, List.reverse_reverse]
  rw [if_neg hp]
  simp

/-- A string with nonempty character data is not the empty string. -/
lemma ne_empty_of_data_ne_nil {a : String} (h : a.data ≠ []) : a ≠ "" :=
  fun hEq => h (by rw [hEq])

/-- Computation of a two-chunk separator join. -/
lemma intercalate_pair (a b : List Char) :
    ['/'].intercalate [a, b] = a ++ '/' :: b := by
  simp [List.intercalate, List.intersperse]

/-- Computation of a three-chunk separator join. -/
lemma intercalate_triple (a b c : List Char) :
    ['/'].intercalate [a, b, c] = a ++ '/' :: (b ++ '/' :: c) := by
  simp [List.intercalate, List.intersperse]

/-- On plain segments, `path.posix.join` is plain concatenation with one
separator. -/
lemma pathJoin2_plain2 (a b : String) (ha : PlainL a.data) (hb : PlainL b.data) :
    pathJoin2 a b = a ++ "/" ++ b := by
  rw [pathJoin2, if_neg (ne_empty_of_data_ne_nil ha.1),
    if_neg (ne_empty_of_data_ne_nil hb.1)]
  apply String.ext
  show posixNormalizeL (a ++ "/" ++ b).data = (a ++ "/" ++ b).data
  have hdata : (a ++ "/" ++ b).data = ['/'].intercalate [a.data, b.data] := by
    rw [intercalate_pair]; simp [String.data_append]
  rw [hdata]
  refine posixNormalizeL_plain [a.data, b.data] ?_ (by simp)
  intro l hl
  simp only [List.mem_cons, List.not_mem_nil, or_false] at hl
  rcases hl with rfl | rfl
  · exact ha
  · exact hb

/-- On plain segments, joining a third segment onto an already-joined pair
again only concatenates. -/
lemma pathJoin2_plain3 (a b c : String) (ha : PlainL a.data)
    (hb : PlainL b.data) (hc : PlainL c.data) :
    pathJoin2 (a ++ "/" ++ b) c = a ++ "/" ++ b ++ "/" ++ c := by
  have habne : (a ++ "/" ++ b) ≠ "" := by
    apply ne_empty_of_data_ne_nil
    simp [String.data_append]
  rw [pathJoin2, if_neg habne, if_neg (ne_empty_of_data_ne_nil hc.1)]
  apply String.ext
  show posixNormalizeL (a ++ "/" ++ b ++ "/" ++ c).data =
    (a ++ "/" ++ b ++ "/" ++ c).data
  have hdata : (a ++ "/" ++ b ++ "/" ++ c).data =
      ['/'].intercalate [a.data, b.data, c.data] := by
    rw [intercalate_triple]; simp [String.data_append]
  rw [hdata]
  refine posixNormalizeL_plain [a.data, b.data, c.data] ?_ (by simp)
  intro l hl
  simp only [List.mem_cons, List.not_mem_nil, or_false] at hl
  rcases hl with rfl | rfl | rfl
  · exact ha
  · exact hb
  · exact hc

/-- Lookup after a JS-object assignment. -/
lemma lookup_objInsert {α : Type} (m : List (String × α)) (k k' : String)
    (v : α) :
    List.lookup k' (objInsert m k v) =
      if k' = k then some v else List.lookup k' m := by
  induction m with
  | nil =>
    by_cases h : k' = k
    · simp [objInsert, List.lookup, h]
    · simp [objInsert, List.lookup, h, beq_eq_false_iff_ne.mpr h]
  | cons e rest ih =>
    obtain ⟨ke, ve⟩ := e
    by_cases hk : ke = k
    · subst hk
      by_cases h : k' = ke
      · simp [objInsert, List.lookup, h]
      · simp [objInsert, List.lookup, h, beq_eq_false_iff_ne.mpr h]
    · by_cases h : k' = ke
      · subst h
        simp [objInsert, hk, List.lookup, Ne.symm hk]
      · simp [objInsert, hk, List.lookup, beq_eq_false_iff_ne.mpr h, h, ih]

/-- A binding present after a JS-object assignment was present before or is
the assigned one. -/
lemma mem_objInsert {α : Type} (m : List (String × α)) (k : String) (v : α)
    (x : String × α) (hx : x ∈ objInsert m k v) : x ∈ m ∨ x = (k, v) := by
  induction m with
  | nil => simpa [objInsert] using hx
  | cons e rest ih =>
    obtain ⟨ke, ve⟩ := e
    by_cases hk : ke = k
    · subst hk
      simp only [objInsert, if_pos, List.mem_cons] at hx
      rcases hx with hx1 | hx2
      · exact Or.inr hx1
      · exact Or.inl (List.mem_cons_of_mem _ hx2)
    · simp only [objInsert, if_neg hk, List.mem_cons] at hx
      rcases hx with hx1 | hx2
      · exact Or.inl (List.mem_cons.mpr (Or.inl hx1))
      · rcases ih hx2 with h | h
        · exact Or.inl (List.mem_cons_of_mem _ h)
        · exact Or.inr h

/-- A binding of the built function table comes from some walk outcome. -/
lemma mem_buildFunctions_general (results : List FnResult) :
    ∀ (acc : FunctionMap) (x : String × Function),
      x ∈ results.foldl (fun m r => objInsert m r.key r.fn) acc →
      x ∈ acc ∨ ∃ r ∈ results, x = (r.key, r.fn) := by
  induction results with
  | nil => intro acc x hx; exact Or.inl hx
  | cons r rest ih =>
    intro acc x hx
    rw [List.foldl_cons] at hx
    rcases ih _ x hx with h | ⟨r', hr', rfl⟩
    · rcases mem_objInsert _ _ _ _ h with h' | h'
      · exact Or.inl h'
      · exact Or.inr ⟨r, List.mem_cons_self _ _, h'⟩
    · exact Or.inr ⟨r', List.mem_cons_of_mem _ hr', rfl⟩

/-- A binding of the built function table comes from some walk outcome. -/
lemma mem_buildFunctions (results : List FnResult) (x : String × Function)
    (hx : x ∈ buildFunctions results) : ∃ r ∈ results, x = (r.key, r.fn) := by
  rcases mem_buildFunctions_general results [] x hx with h | h
  · simp at h
  · exact h

/-- Every walk outcome's key stays present in the built function table. -/
lemma lookup_buildFunctions_general (results : List FnResult) :
    ∀ (acc : FunctionMap) (k : String),
      (∃ r ∈ results, r.key = k) ∨ (List.lookup k acc).isSome = true →
      (List.lookup k
        (results.foldl (fun m r => objInsert m r.key r.fn) acc)).isSome = true := by
  induction results with
  | nil =>
    intro acc k h
    rcases h with ⟨r, hr, _⟩ | h
    · simp at hr
    · exact h
  | cons r rest ih =>
    intro acc k h
    rw [List.foldl_cons]
    apply ih
    by_cases hk : k = r.key
    · subst hk
      right
      rw [lookup_objInsert, if_pos rfl]
      rfl
    · rcases h with ⟨r', hr', rfl⟩ | h
      · rcases List.mem_cons.mp hr' with rfl | hr'
        · exact absurd rfl hk
        · exact Or.inl ⟨r', hr', rfl⟩
      · right
        rwa [lookup_objInsert, if_neg hk]

/-- Docstring extraction keeps each entry's key unchanged. -/
lemma docStep_fst (dparse : String → DocInfo) (fs : FS)
    (e : String × Function) : (docStep dparse fs e).1 = e.1 := by
  by_cases hex : fs.existsSync e.2.filename
  · cases hcm : commentExec (fs.readFileSync e.2.filename).data with
    | some interior => simp [docStep, hex, hcm]
    | none => simp [docStep, hex, hcm]
  · simp [docStep, hex]

/-- Docstring extraction keeps each record's name and filename unchanged. -/
lemma docStep_preserves (dparse : String → DocInfo) (fs : FS)
    (e : String × Function) :
    (docStep dparse fs e).2.name = e.2.name ∧
      (docStep dparse fs e).2.filename = e.2.filename := by
  by_cases hex : fs.existsSync e.2.filename
  · cases hcm : commentExec (fs.readFileSync e.2.filename).data with
    | some interior => simp [docStep, hex, hcm]
    | none => simp [docStep, hex, hcm]
  · simp [docStep, hex]

/-- Docstring extraction preserves keys, names, and filenames of the table
entries; only `info` can change. -/
lemma mem_tryToLoadDocs (dparse : String → DocInfo) (fs : FS)
    (m : FunctionMap) (x : String × Function)
    (hx : x ∈ tryToLoadDocs dparse fs m) :
    ∃ y ∈ m, x.1 = y.1 ∧ x.2.name = y.2.name ∧ x.2.filename = y.2.filename := by
  rcases List.mem_map.mp hx with ⟨y, hy, hxy⟩
  refine ⟨y, hy, ?_⟩
  subst hxy
  exact ⟨docStep_fst dparse fs y, (docStep_preserves dparse fs y).1,
    (docStep_preserves dparse fs y).2⟩

/-- Docstring extraction preserves which keys are present. -/
lemma lookup_tryToLoadDocs_isSome (dparse : String → DocInfo) (fs : FS)
    (m : FunctionMap) (k : String) :
    (List.lookup k (tryToLoadDocs dparse fs m)).isSome =
      (List.lookup k m).isSome := by
  induction m with
  | nil => rfl
  | cons e rest ih =>
    show (List.lookup k (docStep dparse fs e :: tryToLoadDocs dparse fs rest)).isSome = _
    rw [List.lookup, List.lookup]
    cases hbe : k == e.1 with
    | true => rw [docStep_fst, hbe]; rfl
    | false => rw [docStep_fst, hbe]; exact ih

/-- Every walk outcome keys its record by the lower-cased qualified name. -/
lemma cfgResults_key (settings : Settings) (fs : FS)
    (root rootFilename : String) (cfg : HppClass) :
    ∀ r ∈ cfgResults settings fs root rootFilename cfg,
      r.key = jsToLower r.fn.name := by
  intro r hr
  rcases List.mem_flatten.mp hr with ⟨lt, hlt, hrlt⟩
  rcases List.mem_map.mp hlt with ⟨et, _, rfl⟩
  rcases List.mem_flatten.mp hrlt with ⟨lc, hlc, hrlc⟩
  rcases List.mem_map.mp hlc with ⟨ec, _, rfl⟩
  rcases List.mem_map.mp hrlc with ⟨ef, _, rfl⟩
  rfl

/-- Pushing a diagnostic for a key different from the head passes over the
head entry. -/
lemma pushDiag_cons_ne (k : String) (ds : List Diagnostic) (d : DiagMap)
    (u : String) (diag : Diagnostic) (h : u ≠ k) :
    pushDiag ((k, ds) :: d) u diag = (k, ds) :: pushDiag d u diag := by
  unfold pushDiag
  rw [List.lookup, beq_eq_false_iff_ne.mpr h]
  cases hl : List.lookup u d with
  | some ds' => simp [objInsert, Ne.symm h]
  | none => rfl

/-- Pushing one diagnostic grows the batch total by exactly one. -/
lemma diagTotal_pushDiag (d : DiagMap) (u : String) (diag : Diagnostic) :
    diagTotal (pushDiag d u diag) = diagTotal d + 1 := by
  induction d with
  | nil => simp [pushDiag, diagTotal, List.lookup]
  | cons e rest ih =>
    obtain ⟨k, ds⟩ := e
    by_cases hu : u = k
    · subst hu
      simp [pushDiag, List.lookup, objInsert, diagTotal]
      omega
    · rw [pushDiag_cons_ne _ _ _ _ _ hu]
      simp only [diagTotal, List.map_cons, List.sum_cons] at *
      omega

/-- The built diagnostics batch holds exactly one diagnostic per walk
outcome that produced one (generalized over the fold accumulator). -/
lemma diagTotal_buildDiagnostics_general (results : List FnResult) :
    ∀ acc : DiagMap,
      diagTotal (results.foldl (fun d r =>
        match r.diag with
        | some ud => pushDiag d ud.1 ud.2
        | none => d) acc) =
      diagTotal acc + results.countP (fun r => r.diag.isSome) := by
  induction results with
  | nil => intro acc; simp [List.countP_nil]
  | cons r rest ih =>
    intro acc
    rw [List.foldl_cons]
    cases hd : r.diag with
    | some ud =>
      rw [ih, diagTotal_pushDiag]
      simp [List.countP_cons, hd]
      omega
    | none =>
      rw [ih]
      simp [List.countP_cons, hd]

/-- The built diagnostics batch holds exactly one diagnostic per walk
outcome that produced one. -/
lemma diagTotal_buildDiagnostics (results : List FnResult) :
    diagTotal (buildDiagnostics results) =
      results.countP (fun r => r.diag.isSome) := by
  have := diagTotal_buildDiagnostics_general results []
  simpa [buildDiagnostics, diagTotal] using this

/-- Computation of `jsOr` with no value. -/
lemma jsOr_none (b : String) : jsOr none b = b := rfl

/-- Computation of `jsOr` with a truthy value. -/
lemma jsOr_some_ne (s b : String) (h : s ≠ "") : jsOr (some s) b = s := by
  simp [jsOr, h]

/-- Sample registry fixture: the function class `doThing` (declared in the
root file itself), used by the concrete witnesses below. -/
def wFnClass : HppClass :=
  .mk "doThing" (some "/m/description.ext") ⟨1, 2, 3, 4⟩ [] []

/-- Sample registry fixture: the category class `utils`. -/
def wCatClass : HppClass :=
  .mk "utils" none ⟨0, 0, 0, 0⟩ [("dothing", wFnClass)] []

/-- Sample registry fixture: a tag class carrying `tag = "MYTAG"`. -/
def wTagClass : HppClass :=
  .mk "TAG1" none ⟨0, 0, 0, 0⟩ [("utils", wCatClass)] [("tag", "MYTAG")]

/-- Sample registry fixture: the `CfgFunctions` registry class. -/
def wCfg : HppClass :=
  .mk "CfgFunctions" none ⟨0, 0, 0, 0⟩ [("tag1", wTagClass)] []

/-- Sample filesystem on which no file exists. -/
def wFsNone : FS := ⟨fun _ => false, fun _ => ""⟩

/-- Sample settings with no include paths and no discovery. -/
def wSettings : Settings := ⟨[], [], false⟩

/-- Sample stand-in for the external docstring parser. -/
def wDparse : String → DocInfo := fun s => ⟨s, [], none, ""⟩

/-- C4: after an indexing pass, every entry of the root's inner function
table keys its stored record — whose `name` field preserves the casing as
declared — by the lower-cased form of that name, regardless of the
class-name casing in the source tree. -/
theorem c4_table_keys_are_lowercased_names (dparse : String → DocInfo)
    (settings : Settings) (fs : FS) (cfg : HppClass) (rootFilename : String)
    (k : String) (fn : Function)
    (hmem : (k, fn) ∈
      (processCfgFunctions dparse settings fs cfg rootFilename).functions) :
    k = jsToLower fn.name := by
  simp only [processCfgFunctions] at hmem
  rcases mem_tryToLoadDocs _ _ _ _ hmem with ⟨y, hy, h1, h2, _⟩
  rcases mem_buildFunctions _ _ hy with ⟨r, hr, rfl⟩
  have hk := cfgResults_key _ _ _ _ _ r hr
  simp only at h1 h2
  rw [h1, h2, hk]

/-- Witness for C4: the sample registry records `MYTAG_fnc_doThing` under
the key `mytag_fnc_dothing`. -/
theorem c4_witness :
    ("mytag_fnc_dothing",
      ({ name := "MYTAG_fnc_doThing"
         filename := "/m/functions/utils/fn_doThing.sqf" } : Function)) ∈
      (processCfgFunctions wDparse wSettings wFsNone wCfg
        "/m/description.ext").functions ∧
    "mytag_fnc_dothing" = jsToLower "MYTAG_fnc_doThing" :=
  ⟨by decide,
    c4_table_keys_are_lowercased_names wDparse wSettings wFsNone wCfg
      "/m/description.ext" "mytag_fnc_dothing"
      { name := "MYTAG_fnc_doThing"
        filename := "/m/functions/utils/fn_doThing.sqf" } (by decide)⟩

/-- Stale module state fixture: a table entry left by a previous pass. -/
def wStaleTable : FunctionTable :=
  [("/m/description.ext", [("old_fnc_x", { name := "OLD_fnc_X"
                                           filename := "/p" })])]

/-- Top-level parse tree with no `CfgFunctions` registry class. -/
def wEmptyBody : ClassBody := ⟨[], []⟩

/-- Counterexample to C5: processing a root whose tree has no function
registry leaves the previous pass's entries in place — the table still maps
the root to the old record, not to an empty entry, refuting the claimed
replacement. -/
theorem c5_counterexample :
    (process wDparse wSettings wFsNone wEmptyBody "/m/description.ext"
      wStaleTable).1 = wStaleTable ∧
    List.lookup "/m/description.ext"
      (process wDparse wSettings wFsNone wEmptyBody "/m/description.ext"
        wStaleTable).1 =
      some [("old_fnc_x", { name := "OLD_fnc_X", filename := "/p" })] ∧
    List.lookup "/m/description.ext"
      (process wDparse wSettings wFsNone wEmptyBody "/m/description.ext"
        wStaleTable).1 ≠ some [] ∧
    (process wDparse wSettings wFsNone wEmptyBody "/m/description.ext"
      wStaleTable).2 = [] := by
  refine ⟨rfl, by decide, by decide, rfl⟩

/-- C5 (amended): when the parsed tree for a root has no top-level
function-registry class, the pass emits no diagnostics and leaves the
module's function table untouched — in particular, entries recorded for
that root by a previous pass are still present, not replaced by an empty
entry. -/
theorem c5_amended_no_registry_keeps_state (dparse : String → DocInfo)
    (settings : Settings) (fs : FS) (ctx : ClassBody) (filename : String)
    (table : FunctionTable)
    (habs : List.lookup "cfgfunctions" ctx.classes = none) :
    process dparse settings fs ctx filename table = (table, []) := by
  unfold process
  rw [habs]

/-- Witness for the amended C5 on the stale-state fixture. -/
theorem c5_amended_witness :
    process wDparse wSettings wFsNone wEmptyBody "/m/description.ext"
      wStaleTable = (wStaleTable, []) :=
  c5_amended_no_registry_keeps_state wDparse wSettings wFsNone wEmptyBody
    "/m/description.ext" wStaleTable rfl

/-- The bare default function file component is a plain path segment as
soon as the function's class name contains no separator. -/
lemma fnFile_plain (n : String) (h : '/' ∉ n.data) :
    PlainL ("fn_" ++ n ++ ".sqf").data := by
  have hd : ("fn_" ++ n ++ ".sqf").data =
      'f' :: 'n' :: '_' :: (n.data ++ ['.', 's', 'q', 'f']) := by
    simp [String.data_append]
  rw [hd]
  refine ⟨by simp, by simp, by simp, ?_⟩
  simp [h]

/-- The string literal `"functions"` is a plain path segment. -/
lemma functions_plain : PlainL ("functions" : String).data := by
  refine ⟨by decide, by decide, by decide, by decide⟩

/-- C1: in a registry walk, a function class under a tag group with
effective tag `T` and a category class `C` carrying no overrides — and
whose class names are plain path segments — produces an outcome whose
record is named `<T>_fnc_<name>`, keyed by its lower-cased form, with
pre-resolution relative filename `functions/<C>/fn_<name>.sqf`, the
recorded filename being that relative filename run through include-path
and root resolution. -/
theorem c1_default_function_naming (settings : Settings) (fs : FS)
    (root rootFilename : String) (tagClass cat fnc : HppClass)
    (kc kf : String)
    (hc : (kc, cat) ∈ tagClass.classes)
    (hf : (kf, fnc) ∈ cat.classes)
    (hcTag : lookupVar cat "tag" = none)
    (hcFile : lookupVar cat "file" = none)
    (hfExt : lookupVar fnc "ext" = none)
    (hfFile : lookupVar fnc "file" = none)
    (hcatPlain : PlainL cat.name.data)
    (hfnSlash : '/' ∉ fnc.name.data) :
    processFunction settings fs root rootFilename
        (jsOr (lookupVar tagClass "tag") tagClass.name)
        (pathJoin2 "functions" cat.name) fnc ∈
      processTag settings fs root rootFilename tagClass ∧
    (processFunction settings fs root rootFilename
        (jsOr (lookupVar tagClass "tag") tagClass.name)
        (pathJoin2 "functions" cat.name) fnc).fn.name =
      jsOr (lookupVar tagClass "tag") tagClass.name ++ "_fnc_" ++ fnc.name ∧
    (processFunction settings fs root rootFilename
        (jsOr (lookupVar tagClass "tag") tagClass.name)
        (pathJoin2 "functions" cat.name) fnc).key =
      jsToLower
        (jsOr (lookupVar tagClass "tag") tagClass.name ++ "_fnc_" ++ fnc.name) ∧
    functionRelFilename (pathJoin2 "functions" cat.name) fnc =
      "functions/" ++ cat.name ++ "/fn_" ++ fnc.name ++ ".sqf" ∧
    (processFunction settings fs root rootFilename
        (jsOr (lookupVar tagClass "tag") tagClass.name)
        (pathJoin2 "functions" cat.name) fnc).fn.filename =
      resolveFunctionPath root
        ("functions/" ++ cat.name ++ "/fn_" ++ fnc.name ++ ".sqf")
        settings.includePrefixes := by
  have hrel : functionRelFilename (pathJoin2 "functions" cat.name) fnc =
      "functions/" ++ cat.name ++ "/fn_" ++ fnc.name ++ ".sqf" := by
    rw [functionRelFilename, hfExt, hfFile, jsOr_none, jsOr_none,
      pathJoin2_plain2 _ _ functions_plain hcatPlain,
      pathJoin2_plain3 _ _ _ functions_plain hcatPlain
        (fnFile_plain _ hfnSlash)]
    apply String.ext
    simp only [String.data_append, List.append_assoc]
    rfl
  refine ⟨?_, rfl, rfl, hrel, ?_⟩
  · unfold processTag
    apply List.mem_flatten.mpr
    refine ⟨processCategory settings fs root rootFilename
      (jsOr (lookupVar tagClass "tag") tagClass.name) cat, ?_, ?_⟩
    · exact List.mem_map.mpr ⟨(kc, cat), hc, rfl⟩
    · unfold processCategory
      simp only [hcTag, hcFile, jsOr_none]
      exact List.mem_map.mpr ⟨(kf, fnc), hf, rfl⟩
  · show resolveFunctionPath root
      (functionRelFilename (pathJoin2 "functions" cat.name) fnc)
      settings.includePrefixes = _
    rw [hrel]

/-- Witness for C1 on a registry without tag override: class `Utils`
containing `doThing` under tag class `TAG1` yields `TAG1_fnc_doThing` at
`functions/Utils/fn_doThing.sqf`. -/
theorem c1_witness :
    (processFunction wSettings wFsNone "/m" "/m/description.ext"
        (jsOr (lookupVar (HppClass.mk "TAG1" none ⟨0, 0, 0, 0⟩
          [("utils", HppClass.mk "Utils" none ⟨0, 0, 0, 0⟩
            [("dothing", wFnClass)] [])] []) "tag")
          (HppClass.mk "TAG1" none ⟨0, 0, 0, 0⟩
            [("utils", HppClass.mk "Utils" none ⟨0, 0, 0, 0⟩
              [("dothing", wFnClass)] [])] []).name)
        (pathJoin2 "functions" "Utils") wFnClass).fn.name =
      "TAG1" ++ "_fnc_" ++ "doThing" ∧
    functionRelFilename (pathJoin2 "functions" "Utils") wFnClass =
      "functions/" ++ "Utils" ++ "/fn_" ++ "doThing" ++ ".sqf" := by
  have h := c1_default_function_naming wSettings wFsNone "/m"
    "/m/description.ext"
    (HppClass.mk "TAG1" none ⟨0, 0, 0, 0⟩
      [("utils", HppClass.mk "Utils" none ⟨0, 0, 0, 0⟩
        [("dothing", wFnClass)] [])] [])
    (HppClass.mk "Utils" none ⟨0, 0, 0, 0⟩ [("dothing", wFnClass)] [])
    wFnClass "utils" "dothing" (List.mem_singleton.mpr rfl)
    (List.mem_singleton.mpr rfl) rfl rfl rfl rfl (by decide) (by decide)
  exact ⟨h.2.1, h.2.2.2.1⟩

/-- C7: a truthy `tag` variable on a category replaces the enclosing tag
group's tag in the qualified names of the functions under that category,
while the category's default path remains `functions/<category-class-name>`,
unaffected by the tag override. -/
theorem c7_category_tag_override (settings : Settings) (fs : FS)
    (root rootFilename tag : String) (cat fnc : HppClass) (kf v : String)
    (hf : (kf, fnc) ∈ cat.classes)
    (hcTag : lookupVar cat "tag" = some v)
    (hv : v ≠ "")
    (hcFile : lookupVar cat "file" = none)
    (hfExt : lookupVar fnc "ext" = none)
    (hfFile : lookupVar fnc "file" = none)
    (hcatPlain : PlainL cat.name.data)
    (hfnSlash : '/' ∉ fnc.name.data) :
    processFunction settings fs root rootFilename v
        (pathJoin2 "functions" cat.name) fnc ∈
      processCategory settings fs root rootFilename tag cat ∧
    (processFunction settings fs root rootFilename v
        (pathJoin2 "functions" cat.name) fnc).fn.name =
      v ++ "_fnc_" ++ fnc.name ∧
    functionRelFilename (pathJoin2 "functions" cat.name) fnc =
      "functions/" ++ cat.name ++ "/fn_" ++ fnc.name ++ ".sqf" := by
  refine ⟨?_, rfl, ?_⟩
  · unfold processCategory
    simp only [hcTag, hcFile, jsOr_none, jsOr_some_ne _ _ hv]
    exact List.mem_map.mpr ⟨(kf, fnc), hf, rfl⟩
  · rw [functionRelFilename, hfExt, hfFile, jsOr_none, jsOr_none,
      pathJoin2_plain2 _ _ functions_plain hcatPlain,
      pathJoin2_plain3 _ _ _ functions_plain hcatPlain
        (fnFile_plain _ hfnSlash)]
    apply String.ext
    simp only [String.data_append, List.append_assoc]
    rfl

/-- Witness for C7 on the sample registry: `utils` carrying `tag="MYTAG"`
names its function `MYTAG_fnc_doThing` while the default path stays
`functions/utils/fn_doThing.sqf`. -/
theorem c7_witness :
    (processFunction wSettings wFsNone "/m" "/m/description.ext" "MYTAG"
        (pathJoin2 "functions" "utils") wFnClass).fn.name =
      "MYTAG" ++ "_fnc_" ++ "doThing" ∧
    functionRelFilename (pathJoin2 "functions" "utils") wFnClass =
      "functions/" ++ "utils" ++ "/fn_" ++ "doThing" ++ ".sqf" := by
  have h := c7_category_tag_override wSettings wFsNone "/m"
    "/m/description.ext" "TAG1"
    (HppClass.mk "utils" (some "/m/description.ext") ⟨0, 0, 0, 0⟩
      [("dothing", wFnClass)] [("tag", "MYTAG")])
    wFnClass "dothing" "MYTAG" (List.mem_singleton.mpr rfl) rfl (by decide)
    rfl rfl rfl (by decide) (by decide)
  exact ⟨h.2.1, h.2.2⟩

/-- Counterexample to C2: in the claim's own scenario — include prefix
`\A3\` mapped to `C:/Data`, declared path `\A3\foo.sqf`, root directory
`/m` — the resolved filename is not the claimed `C:/Data\foo.sqf`: slicing
off the prefix also consumes its trailing backslash and the mapped value is
prepended with no separator (and `C:/Data` is not absolute under the posix
path semantics, so the concatenation is further joined under the root),
giving `/m/C:/Datafoo.sqf`. -/
theorem c2_counterexample :
    resolveFunctionPath "/m" "\\A3\\foo.sqf" [("\\A3\\", "C:/Data")] ≠
      "C:/Data\\foo.sqf" ∧
    resolveFunctionPath "/m" "\\A3\\foo.sqf" [("\\A3\\", "C:/Data")] =
      "/m/C:/Datafoo.sqf" := by
  exact ⟨by decide, by decide⟩

/-- C2 (amended): the first configured include prefix (in declared order)
that is a string prefix of the relative filename wins; on a match the
prefix — including any trailing separator it contains — is sliced off and
the mapped value is prepended verbatim with no separator inserted, the
result being used as-is when the mapped path is absolute and joined against
the root directory otherwise; with no match the filename is joined against
the root directory.  In the claim's scenario the prefix `\A3\` with mapped
value `C:/Data` therefore turns `\A3\foo.sqf` into the concatenation
`C:/Datafoo.sqf` joined under the root (`/m/C:/Datafoo.sqf`), and an
absolute mapped value `/Data` yields the bare concatenation
`/Datafoo.sqf`. -/
theorem c2_amended_first_match_resolution :
    (∀ (includes : List (String × String)) (root filename : String),
      resolveFunctionPath root filename includes =
        match includes.find? (fun pr => jsStartsWith filename pr.1) with
        | some pm =>
          if pathIsAbsolute pm.2 then
            pm.2 ++ jsSliceFrom filename (jsLength pm.1)
          else pathJoin2 root (pm.2 ++ jsSliceFrom filename (jsLength pm.1))
        | none => pathJoin2 root filename) ∧
    resolveFunctionPath "/m" "\\A3\\foo.sqf" [("\\A3\\", "C:/Data")] =
      pathJoin2 "/m" ("C:/Data" ++ "foo.sqf") ∧
    resolveFunctionPath "/m" "\\A3\\foo.sqf" [("\\A3\\", "C:/Data")] =
      "/m/C:/Datafoo.sqf" ∧
    resolveFunctionPath "/m" "\\A3\\foo.sqf" [("\\A3\\", "/Data")] =
      "/Data" ++ "foo.sqf" := by
  refine ⟨?_, by decide, by decide, by decide⟩
  intro includes root filename
  induction includes with
  | nil => rfl
  | cons pm rest ih =>
    obtain ⟨p, mapped⟩ := pm
    by_cases h : jsStartsWith filename p
    · rw [resolveFunctionPath, if_pos h]
      simp only [List.find?, h]
    · have h' : jsStartsWith filename p = false := by simpa using h
      rw [resolveFunctionPath, if_neg h, ih]
      simp only [List.find?, h']

/-- C3: a declared function whose resolved file does not exist yields
exactly one diagnostic — severity Error, at the function class's declared
range, attributed to the declaration-site filename (falling back to the
root file), with message exactly
`Failed to find <resolvedPath> for function <qualifiedName>.` — while the
function's key is still recorded in the final table; across a whole walk
the batch carries exactly one diagnostic per missing-file outcome. -/
theorem c3_missing_file_diagnostic (dparse : String → DocInfo)
    (settings : Settings) (fs : FS)
    (root rootFilename categoryTag categoryPath : String) (fnc : HppClass)
    (results : List FnResult)
    (hmem : processFunction settings fs root rootFilename categoryTag
      categoryPath fnc ∈ results)
    (hmiss : fs.existsSync (processFunction settings fs root rootFilename
      categoryTag categoryPath fnc).fn.filename = false) :
    (processFunction settings fs root rootFilename categoryTag categoryPath
      fnc).diag =
      some (uriFile (jsOr fnc.locFilename rootFilename),
        { severity := Severity.error
          range := fnc.locRange
          message := "Failed to find " ++
            (processFunction settings fs root rootFilename categoryTag
              categoryPath fnc).fn.filename ++ " for function " ++
            (processFunction settings fs root rootFilename categoryTag
              categoryPath fnc).fn.name ++ "."
          source := "sqflint" }) ∧
    (List.lookup (processFunction settings fs root rootFilename categoryTag
        categoryPath fnc).key
      (tryToLoadDocs dparse fs (buildFunctions results))).isSome = true ∧
    diagTotal (buildDiagnostics results) =
      results.countP (fun r => r.diag.isSome) := by
  refine ⟨?_, ?_, diagTotal_buildDiagnostics results⟩
  · simp only [processFunction] at hmiss ⊢
    rw [hmiss]
    simp
  · rw [lookup_tryToLoadDocs_isSome]
    unfold buildFunctions
    exact lookup_buildFunctions_general results [] _ (Or.inl ⟨_, hmem, rfl⟩)

/-- Witness for C3: on a filesystem with no files, the sample function
produces the single expected Error diagnostic and stays recorded. -/
theorem c3_witness :
    (processFunction wSettings wFsNone "/m" "/m/description.ext" "MYTAG"
      "functions/utils" wFnClass).diag =
      some (uriFile (jsOr wFnClass.locFilename "/m/description.ext"),
        { severity := Severity.error
          range := wFnClass.locRange
          message := "Failed to find " ++
            (processFunction wSettings wFsNone "/m" "/m/description.ext"
              "MYTAG" "functions/utils" wFnClass).fn.filename ++
            " for function " ++
            (processFunction wSettings wFsNone "/m" "/m/description.ext"
              "MYTAG" "functions/utils" wFnClass).fn.name ++ "."
          source := "sqflint" }) ∧
    (List.lookup (processFunction wSettings wFsNone "/m" "/m/description.ext"
        "MYTAG" "functions/utils" wFnClass).key
      (tryToLoadDocs wDparse wFsNone (buildFunctions
        [processFunction wSettings wFsNone "/m" "/m/description.ext" "MYTAG"
          "functions/utils" wFnClass]))).isSome = true ∧
    diagTotal (buildDiagnostics
      [processFunction wSettings wFsNone "/m" "/m/description.ext" "MYTAG"
        "functions/utils" wFnClass]) =
      List.countP (fun r => r.diag.isSome)
        [processFunction wSettings wFsNone "/m" "/m/description.ext" "MYTAG"
          "functions/utils" wFnClass] :=
  c3_missing_file_diagnostic wDparse wSettings wFsNone "/m"
    "/m/description.ext" "MYTAG" "functions/utils" wFnClass
    [processFunction wSettings wFsNone "/m" "/m/description.ext" "MYTAG"
      "functions/utils" wFnClass]
    (List.mem_singleton.mpr rfl) rfl

/-- A key absent from every binding is not found. -/
lemma lookup_eq_none_of_ne {α : Type} (m : List (String × α)) (k : String)
    (h : ∀ en ∈ m, en.1 ≠ k) : List.lookup k m = none := by
  induction m with
  | nil => rfl
  | cons e rest ih =>
    rw [List.lookup,
      beq_eq_false_iff_ne.mpr (fun hk => h e (List.mem_cons_self _ _) hk.symm)]
    exact ih (fun en hen => h en (List.mem_cons_of_mem _ hen))

/-- Sample query-surface table with one mixed-case record. -/
def wQueryTable : FunctionTable :=
  [("r", [("tag_fnc_foo", { name := "TAG_fnc_Foo", filename := "/p" })])]

/-- Sample query-surface state. -/
def wQueryState : ExtState := ⟨wQueryTable, []⟩

/-- C10: `getFunction` (and hence `onDefinition`) lower-cases the queried
name before the lookup, making definition lookup case-insensitive and
returning the first match in root-iteration order; `onHover`, by contrast,
looks the name up verbatim against the lower-cased keys, so on a table
whose keys are lowercase-stable a hover lookup can only succeed when the
queried name is already entirely lower-case. -/
theorem c10_definition_vs_hover_case :
    (∀ (table : FunctionTable) (n₁ n₂ : String),
      jsToLower n₁ = jsToLower n₂ →
      getFunction table n₁ = getFunction table n₂) ∧
    (∀ (table : FunctionTable) (name : String),
      getFunction table name =
        table.findSome? (fun e => List.lookup (jsToLower name) e.2)) ∧
    (∀ (table : FunctionTable) (name : String), WFLowerKeys table →
      jsToLower name ≠ name → hoverFindFn name table = none) ∧
    (∀ (state : ExtState) (uri name : String), WFLowerKeys state.functions →
      jsToLower name ≠ name →
      jsToLower (pathBasename uri) ≠ "description.ext" →
      onHover state uri name = none) ∧
    (∀ (table : FunctionTable) (name : String),
      onDefinition table name =
        ((getFunction table name).map (fun fn =>
          { uri := uriFile fn.filename, startLine := 0, startChar := 0
            endLine := 0, endChar := 1 })).toList) := by
  have hloop : ∀ (table : FunctionTable) (lowered : String),
      getFunctionLoop lowered table =
        table.findSome? (fun e => List.lookup lowered e.2) := by
    intro table lowered
    induction table with
    | nil => rfl
    | cons e rest ih =>
      rw [getFunctionLoop, List.findSome?_cons]
      cases List.lookup lowered e.2 with
      | some f => rfl
      | none => exact ih
  have hhover : ∀ (table : FunctionTable) (name : String), WFLowerKeys table →
      jsToLower name ≠ name → hoverFindFn name table = none := by
    intro table name hwf hne
    induction table with
    | nil => rfl
    | cons e rest ih =>
      rw [hoverFindFn, lookup_eq_none_of_ne]
      · exact ih (fun x hx => hwf x (List.mem_cons_of_mem _ hx))
      · intro en hen hk
        exact hne (by rw [← hk]; exact hwf e (List.mem_cons_self _ _) en hen)
  refine ⟨?_, ?_, hhover, ?_, ?_⟩
  · intro table n₁ n₂ h
    unfold getFunction
    rw [h]
  · intro table name
    exact hloop table (jsToLower name)
  · intro state uri name hwf hne hb
    unfold onHover
    by_cases hext : jsToLower (pathExtname uri) = ".sqf"
    · rw [if_pos hext, hhover state.functions name hwf hne, if_neg hb]
    · rw [if_neg hext, if_neg hb]
  · intro table name
    unfold onDefinition
    cases getFunction table name with
    | some fn => rfl
    | none => rfl

/-- Witness for C10 on the sample table: the definition lookup finds
`TAG_FNC_FOO` case-insensitively while the hover lookup for the literal
name `TAG_fnc_Foo` fails. -/
theorem c10_witness :
    getFunction wQueryTable "TAG_FNC_FOO" = getFunction wQueryTable
      "tag_fnc_foo" ∧
    hoverFindFn "TAG_fnc_Foo" wQueryTable = none ∧
    onHover wQueryState "/m/x.sqf" "TAG_fnc_Foo" = none :=
  ⟨c10_definition_vs_hover_case.1 wQueryTable "TAG_FNC_FOO" "tag_fnc_foo"
      (by decide),
    c10_definition_vs_hover_case.2.2.1 wQueryTable "TAG_fnc_Foo" (by decide)
      (by decide),
    c10_definition_vs_hover_case.2.2.2.1 wQueryState "/m/x.sqf" "TAG_fnc_Foo"
      (by decide) (by decide) (by decide)⟩

/-- The completion filter on a table key is exactly a JS `startsWith` test
of the key against the typed prefix. -/
lemma completionMatches_eq_startsWith (name ident : String) :
    completionMatches name ident = jsStartsWith ident name := by
  unfold completionMatches jsStartsWith jsLength
  apply decide_eq_decide.mpr
  constructor
  · intro h
    exact h.2
  · intro h
    refine ⟨?_, h⟩
    have := congrArg List.length h
    rw [List.length_take] at this
    omega

/-- Counterexample to C8: the stored record `TAG_fnc_Foo` has a literal
qualified name starting with the typed prefix `TAG`, yet completion on a
`.sqf` document returns nothing for `TAG` — the match is made against the
lower-cased table key, not the literal stored name (the lower-case prefix
`tag` does return the item). -/
theorem c8_counterexample :
    onCompletion wQueryState "/m/x.sqf" "TAG" = [] ∧
    jsStartsWith "TAG_fnc_Foo" "TAG" = true ∧
    List.lookup "r" wQueryState.functions =
      some [("tag_fnc_foo", { name := "TAG_fnc_Foo", filename := "/p" })] ∧
    onCompletion wQueryState "/m/x.sqf" "tag" =
      [{ label := "TAG_fnc_Foo", data := "tag_fnc_foo"
         filterText := "TAG_fnc_Foo", insertText := "TAG_fnc_Foo"
         kind := completionKindFunction }] := by
  refine ⟨by decide, by decide, by decide, by decide⟩

/-- C8 (amended): for a completion request on a document whose extension
case-folds to `.sqf` (and whose basename is not `description.ext`), the
returned items are exactly, across all roots, the records whose
lower-cased table key starts with the typed prefix — a case-sensitive
prefix match performed against the key, not against the literal stored
name, which is used only as the item's label and insertion text. -/
theorem c8_amended_completion_matches_keys (state : ExtState)
    (uri name : String) (item : CompletionItem)
    (hext : jsToLower (pathExtname uri) = ".sqf")
    (hb : jsToLower (pathBasename uri) ≠ "description.ext") :
    item ∈ onCompletion state uri name ↔
      ∃ fe ∈ state.functions, ∃ en ∈ fe.2, jsStartsWith en.1 name = true ∧
        item = { label := en.2.name, data := en.1, filterText := en.2.name
                 insertText := en.2.name, kind := completionKindFunction } := by
  unfold onCompletion
  rw [if_pos hext, if_neg hb, List.append_nil]
  unfold fnCompletionItems
  constructor
  · intro h
    rcases List.mem_flatten.mp h with ⟨l, hl, hil⟩
    rcases List.mem_map.mp hl with ⟨fe, hfe, rfl⟩
    rcases List.mem_filterMap.mp hil with ⟨en, hen, hif⟩
    by_cases hm : completionMatches name en.1 = true
    · rw [if_pos hm] at hif
      refine ⟨fe, hfe, en, hen, ?_, ?_⟩
      · rw [← completionMatches_eq_startsWith]; exact hm
      · exact (Option.some.inj hif).symm
    · rw [if_neg hm] at hif
      exact absurd hif (by simp)
  · rintro ⟨fe, hfe, en, hen, hsw, rfl⟩
    apply List.mem_flatten.mpr
    refine ⟨_, List.mem_map.mpr ⟨fe, hfe, rfl⟩, ?_⟩
    apply List.mem_filterMap.mpr
    refine ⟨en, hen, ?_⟩
    rw [if_pos]
    rw [completionMatches_eq_startsWith]
    exact hsw

/-- Witness for the amended C8: on the sample table, the lower-case typed
prefix `tag` yields the item labelled with the literal stored name. -/
theorem c8_amended_witness :
    ({ label := "TAG_fnc_Foo", data := "tag_fnc_foo"
       filterText := "TAG_fnc_Foo", insertText := "TAG_fnc_Foo"
       kind := completionKindFunction } : CompletionItem) ∈
      onCompletion wQueryState "/m/x.sqf" "tag" :=
  (c8_amended_completion_matches_keys wQueryState "/m/x.sqf" "tag"
    { label := "TAG_fnc_Foo", data := "tag_fnc_foo"
      filterText := "TAG_fnc_Foo", insertText := "TAG_fnc_Foo"
      kind := completionKindFunction } (by decide) (by decide)).mpr
    ⟨("r", [("tag_fnc_foo", { name := "TAG_fnc_Foo", filename := "/p" })]),
      List.mem_singleton.mpr rfl,
      ("tag_fnc_foo", { name := "TAG_fnc_Foo", filename := "/p" }),
      List.mem_singleton.mpr rfl, by decide, rfl⟩

/-- A comment opener needs two characters of room. -/
lemma opensAt_le (s : List Char) (i : Nat) (h : opensAt s i = true) :
    i + 2 ≤ s.length := by
  unfold opensAt at h
  rw [decide_eq_true_eq] at h
  have := congrArg List.length h
  simp only [List.length_take, List.length_drop, List.length_cons,
    List.length_nil] at this
  omega

/-- A comment closer needs two characters of room. -/
lemma closesAt_le (s : List Char) (j : Nat) (h : closesAt s j = true) :
    j + 2 ≤ s.length := by
  unfold closesAt at h
  rw [decide_eq_true_eq] at h
  have := congrArg List.length h
  simp only [List.length_take, List.length_drop, List.length_cons,
    List.length_nil] at this
  omega

/-- Sample filesystem holding one function source file whose text begins
with code and only then carries a block comment. -/
def wDocFs : FS := ⟨fun p => p == "/p", fun _ => "x=1;/*D*/"⟩

/-- Counterexample to C9: the file text `x=1;/*D*/` has no leading block
comment before code — the specification-side extraction yields nothing —
yet docstring extraction attaches `info` built from the interior `D`,
because the search regex is unanchored and matches a comment anywhere in
the file. -/
theorem c9_counterexample :
    specLeadingBlockComment "x=1;/*D*/" = none ∧
    tryToLoadDocs wDparse wDocFs
      [("t_fnc_x", { name := "T_fnc_x", filename := "/p" })] =
      [("t_fnc_x", { name := "T_fnc_x", filename := "/p"
                     info := some (wDparse "D") })] := by
  refine ⟨by decide, by decide⟩

/-- C9 (amended): for a recorded function whose resolved file exists,
docstring extraction attaches `info` exactly when the file's text contains
a block comment anywhere — an opening delimiter at some index `i` with a
closing delimiter starting at some `j ≥ i + 2` — not necessarily leading;
the text passed to the (total, hence never-throwing) docstring parser is
the capture group between the first such opener and the last closer.  When
no such pair exists, or the file does not exist, the entry is left
unchanged. -/
theorem c9_amended_comment_anywhere :
    (∀ s : List Char, (commentExec s).isSome = true ↔
      ∃ i j, opensAt s i = true ∧ closesAt s j = true ∧ i + 2 ≤ j) ∧
    (∀ (dparse : String → DocInfo) (fs : FS) (e : String × Function),
      fs.existsSync e.2.filename = false → docStep dparse fs e = e) ∧
    (∀ (dparse : String → DocInfo) (fs : FS) (e : String × Function),
      fs.existsSync e.2.filename = true →
      commentExec (fs.readFileSync e.2.filename).data = none →
      docStep dparse fs e = e) ∧
    (∀ (dparse : String → DocInfo) (fs : FS) (e : String × Function)
      (interior : List Char),
      fs.existsSync e.2.filename = true →
      commentExec (fs.readFileSync e.2.filename).data = some interior →
      docStep dparse fs e =
        (e.1, { e.2 with info := some (dparse ⟨interior⟩) })) ∧
    (∀ (dparse : String → DocInfo) (fs : FS) (m : FunctionMap)
      (x : String × Function), x ∈ m →
      docStep dparse fs x ∈ tryToLoadDocs dparse fs m) := by
  refine ⟨?_, ?_, ?_, ?_, ?_⟩
  · intro s
    constructor
    · intro h
      unfold commentExec at h
      cases hf : (List.range s.length).find? (fun i => opensAt s i &&
          (List.range s.length).any
            (fun j => decide (i + 2 ≤ j) && closesAt s j)) with
      | none => rw [hf] at h; simp at h
      | some i =>
        have hp := List.find?_some hf
        rw [Bool.and_eq_true, List.any_eq_true] at hp
        obtain ⟨ho, j, _, hj⟩ := hp
        rw [Bool.and_eq_true, decide_eq_true_eq] at hj
        exact ⟨i, j, ho, hj.2, hj.1⟩
    · rintro ⟨i, j, ho, hc, hij⟩
      unfold commentExec
      cases hf : (List.range s.length).find? (fun i => opensAt s i &&
          (List.range s.length).any
            (fun j => decide (i + 2 ≤ j) && closesAt s j)) with
      | some i' => simp
      | none =>
        exfalso
        have hnone := List.find?_eq_none.mp hf i
          (List.mem_range.mpr (by have := opensAt_le s i ho; omega))
        apply hnone
        rw [Bool.and_eq_true, List.any_eq_true]
        refine ⟨ho, j,
          List.mem_range.mpr (by have := closesAt_le s j hc; omega), ?_⟩
        rw [Bool.and_eq_true, decide_eq_true_eq]
        exact ⟨hij, hc⟩
  · intro dparse fs e hex
    simp [docStep, hex]
  · intro dparse fs e hex hcm
    simp [docStep, hex, hcm]
  · intro dparse fs e interior hex hcm
    simp [docStep, hex, hcm]
  · intro dparse fs m x hx
    exact List.mem_map_of_mem _ hx

/-- Witness for the amended C9 on the sample file `x=1;/*D*/`: the comment
pair exists (opener at 4, closer at 7), and the extraction step attaches
the parsed interior `D`. -/
theorem c9_amended_witness :
    (commentExec ("x=1;/*D*/" : String).data).isSome = true ∧
    docStep wDparse wDocFs
      ("t_fnc_x", { name := "T_fnc_x", filename := "/p" }) =
      ("t_fnc_x", { name := "T_fnc_x", filename := "/p"
                    info := some (wDparse ⟨['D']⟩) }) :=
  ⟨(c9_amended_comment_anywhere.1 ("x=1;/*D*/" : String).data).mpr
      ⟨4, 7, by decide, by decide, by decide⟩,
    c9_amended_comment_anywhere.2.2.2.1 wDparse wDocFs
      ("t_fnc_x", { name := "T_fnc_x", filename := "/p" }) ['D']
      (by decide) (by decide)⟩

/-- Starting a parse only schedules work: every field except `pending` is
unchanged, and `pending` gains the file's read callback when the file
exists. -/
lemma parseStart_fields (fs : FS) (st : AsyncState) (f : String) :
    (parseStart fs st f).processedFiles = st.processedFiles ∧
    (parseStart fs st f).indexResolved = st.indexResolved ∧
    (parseStart fs st f).pending = st.pending ++
      (if fs.existsSync f then [Job.readFile f] else []) := by
  unfold parseStart parseFileStart
  by_cases h : fs.existsSync f <;> simp [h]

/-- Starting parses for a list of files leaves `processedFiles` and
`indexResolved` unchanged. -/
lemma foldl_parseStart_keeps (fs : FS) (files : List String) :
    ∀ st : AsyncState,
      (files.foldl (parseStart fs) st).processedFiles = st.processedFiles ∧
      (files.foldl (parseStart fs) st).indexResolved = st.indexResolved := by
  induction files with
  | nil => intro st; exact ⟨rfl, rfl⟩
  | cons f rest ih =>
    intro st
    rw [List.foldl_cons]
    refine ⟨?_, ?_⟩
    · rw [(ih _).1, (parseStart_fields fs st f).1]
    · rw [(ih _).2, (parseStart_fields fs st f).2.1]

/-- Starting parses for a list of files schedules exactly one read callback
per existing file, in order. -/
lemma foldl_parseStart_pending (fs : FS) (files : List String) :
    ∀ st : AsyncState,
      (files.foldl (parseStart fs) st).pending =
        st.pending ++ (files.filter fs.existsSync).map Job.readFile := by
  induction files with
  | nil => intro st; simp
  | cons f rest ih =>
    intro st
    rw [List.foldl_cons, ih _, (parseStart_fields fs st f).2.2]
    by_cases h : fs.existsSync f <;> simp [h]

/-- Each read callback, whatever the parse outcome, appends its file to the
processed log. -/
lemma runReadFileJob_processed (env : WorkspaceEnv) (f : String)
    (st : AsyncState) :
    (runReadFileJob env f st).processedFiles = st.processedFiles ++ [f] := by
  unfold runReadFileJob
  cases env.hppParse f with
  | ok ctx => simp
  | error e =>
    cases hfn : e.filename with
    | some ef => by_cases h : ef = "" <;> simp [hfn, h]
    | none => simp [hfn]

/-- Workspace fixture: one configured description file that exists on disk,
with discovery off and a parser chosen arbitrarily (the statements below
hold for every parser). -/
def wEnv : WorkspaceEnv :=
  { dparse := wDparse
    hppParse := fun _ => .ok ⟨[], []⟩
    settings := { includePrefixes := [], descriptionFiles := ["d.ext"]
                  discoverDescriptionFiles := false }
    fs := ⟨fun p => p == "/w/d.ext", fun _ => ""⟩
    discovered := []
    root := "/w" }

/-- Counterexample to C6: `indexWorkspace`'s promise resolves synchronously
at the end of its executor, with the per-file read callback still pending
and no file parsed or processed yet — not only after every determined root
file has been attempted. -/
theorem c6_counterexample :
    (indexWorkspaceBody wEnv initialAsyncState).indexResolved = true ∧
    (indexWorkspaceBody wEnv initialAsyncState).processedFiles = [] ∧
    (indexWorkspaceBody wEnv initialAsyncState).pending =
      [Job.readFile "/w/d.ext"] := by
  refine ⟨by decide, by decide, by decide⟩

/-- C6 (amended): the `indexWorkspace` executor never processes a file
itself — it resolves the promise after only scheduling one read callback
per existing determined root file (non-discovery branch), the per-file
parsing and processing running asynchronously afterwards; running those
scheduled callbacks processes every scheduled file, a parse failure of one
file not preventing the others since each callback catches its own parse
error. -/
theorem c6_amended_resolution_before_processing :
    (∀ (env : WorkspaceEnv) (st : AsyncState),
      (indexWorkspaceBody env st).processedFiles = st.processedFiles) ∧
    (∀ (env : WorkspaceEnv) (st : AsyncState),
      env.settings.discoverDescriptionFiles = false →
      (indexWorkspaceBody env st).indexResolved = true ∧
      (indexWorkspaceBody env st).pending = st.pending ++
        ((determinedFiles env).filter env.fs.existsSync).map Job.readFile) ∧
    (∀ (env : WorkspaceEnv) (st : AsyncState) (files : List String),
      (runJobs env st (files.map Job.readFile)).processedFiles =
        st.processedFiles ++ files) := by
  have hrun : ∀ (env : WorkspaceEnv) (files : List String) (st : AsyncState),
      (runJobs env st (files.map Job.readFile)).processedFiles =
        st.processedFiles ++ files := by
    intro env files
    induction files with
    | nil => intro st; simp [runJobs]
    | cons f rest ih =>
      intro st
      show (runJobs env (runJob env st (Job.readFile f))
        (rest.map Job.readFile)).processedFiles = _
      rw [ih, runJob, runReadFileJob_processed]
      simp
  refine ⟨?_, ?_, fun env st files => hrun env files st⟩
  · intro env st
    unfold indexWorkspaceBody
    cases hd : env.settings.discoverDescriptionFiles with
    | true => simp
    | false => simp [(foldl_parseStart_keeps _ _ _).1]
  · intro env st hd
    unfold indexWorkspaceBody determinedFiles
    rw [hd]
    simp only [Bool.false_eq_true, if_false]
    exact ⟨by simp [(foldl_parseStart_keeps _ _ _).2],
      by simp [foldl_parseStart_pending]⟩

/-- Witness for the amended C6 on the workspace fixture: resolution happens
with exactly the one read callback scheduled, and running it processes the
file. -/
theorem c6_amended_witness :
    (indexWorkspaceBody wEnv initialAsyncState).indexResolved = true ∧
    (indexWorkspaceBody wEnv initialAsyncState).pending =
      initialAsyncState.pending ++
        ((determinedFiles wEnv).filter wEnv.fs.existsSync).map Job.readFile ∧
    (runJobs wEnv initialAsyncState
      (["/w/d.ext"].map Job.readFile)).processedFiles =
      initialAsyncState.processedFiles ++ ["/w/d.ext"] :=
  ⟨(c6_amended_resolution_before_processing.2.1 wEnv initialAsyncState
      rfl).1,
    (c6_amended_resolution_before_processing.2.1 wEnv initialAsyncState
      rfl).2,
    c6_amended_resolution_before_processing.2.2 wEnv initialAsyncState
      ["/w/d.ext"]⟩

end Ext
